import Mathlib

/-!
# Verification of the HArDCore3D polynomial-basis and projection core

Shallow embedding of `src/Common/basis.cpp` (monomial bases, Gram matrices)
and `src/HybridCore/hybridcore.hpp` (quadrature helpers, interpolation) over
exact rational arithmetic.  `double` is modelled by `ℚ`, `Eigen::MatrixXd` by
a size-annotated total function, `boost::multi_array` samples by
`SampledFamily`.  External collaborators (mesh geometry, the quadrature-rule
generator, Eigen's LDLT solver) are fields of an environment structure, as
the spec declares them out of scope.
-/

namespace HArDCore3D

/-- Ambient-space vector (`Eigen::Vector3d` / `VectorRd`), with exact
rational components. -/
structure Vec3 where
  x : ℚ
  y : ℚ
  z : ℚ
deriving DecidableEq

namespace Vec3

def zero : Vec3 := ⟨0, 0, 0⟩

instance : Inhabited Vec3 := ⟨zero⟩

def sub (a b : Vec3) : Vec3 := ⟨a.x - b.x, a.y - b.y, a.z - b.z⟩

def dot (a b : Vec3) : ℚ := a.x * b.x + a.y * b.y + a.z * b.z

def smul (c : ℚ) (v : Vec3) : Vec3 := ⟨c * v.x, c * v.y, c * v.z⟩

def divScalar (v : Vec3) (c : ℚ) : Vec3 := ⟨v.x / c, v.y / c, v.z / c⟩

def add (a b : Vec3) : Vec3 := ⟨a.x + b.x, a.y + b.y, a.z + b.z⟩

end Vec3

/-- The ambient dimension (`dimspace = 3`). -/
def dimspace : ℕ := 3

/-- A quadrature rule: an ordered list of (point, weight) pairs
(`QuadratureRule` = `std::vector<QuadratureNode>`). -/
structure QuadratureRule where
  nodes : List (Vec3 × ℚ)

namespace QuadratureRule

def size (qr : QuadratureRule) : ℕ := qr.nodes.length

def pt (qr : QuadratureRule) (iqn : ℕ) : Vec3 := (qr.nodes.getD iqn (Vec3.zero, 0)).1

def w (qr : QuadratureRule) (iqn : ℕ) : ℚ := (qr.nodes.getD iqn (Vec3.zero, 0)).2

end QuadratureRule

/-- A family of basis functions sampled at quadrature nodes
(`boost::multi_array<T, 2>`): `shape()[0] = size` family members,
`shape()[1] = nNodes` sampled nodes, `val i iqn` the sample. -/
structure SampledFamily (α : Type) where
  size : ℕ
  nNodes : ℕ
  val : ℕ → ℕ → α

/-- A dense real matrix (`Eigen::MatrixXd`): its dimensions plus a total
entry function (entries outside `rows × cols` are the `Zero` fill). -/
structure MatrixQ where
  rows : ℕ
  cols : ℕ
  val : ℕ → ℕ → ℚ

/-- Bounds-checked read of a matrix entry: `none` models an access outside
the allocated `rows × cols` storage. -/
def MatrixQ.read (M : MatrixQ) (i j : ℕ) : Option ℚ :=
  if i < M.rows ∧ j < M.cols then some (M.val i j) else none

/-- Assignment `M(i,j) = v`, every other entry unchanged. -/
def writeEntry (M : ℕ → ℕ → ℚ) (i j : ℕ) (v : ℚ) : ℕ → ℕ → ℚ :=
  fun a b => if a = i ∧ b = j then v else M a b

/-- Assignment `X(n) = v` on a vector, every other entry unchanged. -/
def writeVec (X : ℕ → ℚ) (n : ℕ) (v : ℚ) : ℕ → ℚ :=
  fun m => if m = n then v else X m

/-- Eigen segment assignment `X.segment(off, len) = U`. -/
def writeSeg (X : ℕ → ℚ) (off len : ℕ) (U : ℕ → ℚ) : ℕ → ℚ :=
  fun n => if off ≤ n ∧ n < off + len then U (n - off) else X n

/-! ## Monomial exponent enumeration (`basis.cpp` lines 13-26, 61-67) -/

/-- Exponent tuples of `MonomialScalarBasisCell`: for `l = 0..degree`,
`i = 0..l`, `j` while `i + j ≤ l`, emit `(i, j, l-i-j)`
(`basis.cpp` lines 19-25). -/
def cellPowers (degree : ℕ) : List (ℕ × ℕ × ℕ) :=
  (List.range (degree + 1)).flatMap fun l =>
    (List.range (l + 1)).flatMap fun i =>
      (List.range (l - i + 1)).map fun j => (i, j, l - i - j)

/-- Exponent tuples of `MonomialScalarBasisFace`: for `l = 0..degree`,
`i = 0..l`, emit `(i, l-i)` (`basis.cpp` lines 63-67). -/
def facePowers (degree : ℕ) : List (ℕ × ℕ) :=
  (List.range (degree + 1)).flatMap fun l =>
    (List.range (l + 1)).map fun i => (i, l - i)

/-- Modelled from the spec: the edge basis slots (the `MonomialScalarBasisEdge`
constructor stores no powers and `basis.hpp`'s `dimension()` is not among the
source files); the spec gives `m+1` slots with the single exponent emitted in
increasing order `0..m`, and `function(i, x) = y^i` in `basis.cpp` line 107
ties slot `i` to exponent `i`. -/
def edgePowers (degree : ℕ) : List ℕ := List.range (degree + 1)

/-- Modelled from the spec: `HybridCore::dim_Pcell` (declared in
`hybridcore.hpp` line 87, body not among the source files); the spec gives
`(m+1)(m+2)(m+3)/6`. -/
def dim_Pcell (m : ℕ) : ℕ := (m + 1) * (m + 2) * (m + 3) / 6

/-- Modelled from the spec: `HybridCore::dim_Pface` (declared in
`hybridcore.hpp` line 92, body not among the source files); the spec gives
`(m+1)(m+2)/2`. -/
def dim_Pface (m : ℕ) : ℕ := (m + 1) * (m + 2) / 2

/-- One degree-`l` layer of the face enumeration has `l+1` tuples. -/
lemma facePowers_layer_length (l : ℕ) :
    (((List.range (l + 1)).map fun i => (i, l - i)) : List (ℕ × ℕ)).length = l + 1 := by
  simp

lemma facePowers_length_mul_two (m : ℕ) : (facePowers m).length * 2 = (m + 1) * (m + 2) := by
  induction m with
  | zero => rfl
  | succ m ih =>
    have hsplit : facePowers (m + 1) =
        facePowers m ++ ((List.range (m + 2)).map fun i => (i, m + 1 - i)) := by
      simp [facePowers, List.range_succ]
    rw [hsplit, List.length_append]
    simp only [List.length_map, List.length_range]
    calc ((facePowers m).length + (m + 2)) * 2
        = (facePowers m).length * 2 + (m + 2) * 2 := by ring
      _ = (m + 1) * (m + 2) + (m + 2) * 2 := by rw [ih]
      _ = (m + 2) * (m + 3) := by ring

/-- One degree-`l` layer of the cell enumeration has `(l+1)(l+2)/2` tuples. -/
lemma cellPowers_layer_length (l : ℕ) :
    (((List.range (l + 1)).flatMap fun i =>
      (List.range (l - i + 1)).map fun j => (i, j, l - i - j)) : List (ℕ × ℕ × ℕ)).length * 2
      = (l + 1) * (l + 2) := by
  have h : ∀ l' : ℕ,
      (((List.range (l' + 1)).flatMap fun i =>
        (List.range (l - i + 1)).map fun j => (i, j, l - i - j)) : List (ℕ × ℕ × ℕ)).length
        = ∑ i in Finset.range (l' + 1), (l - i + 1) := by
    intro l'
    induction l' with
    | zero => simp [show List.range 1 = [0] from rfl]
    | succ k ih =>
      rw [List.range_succ, List.flatMap_append, List.length_append, ih]
      conv_rhs => rw [Finset.sum_range_succ]
      simp
  rw [h l]
  have hrefl : ∑ i in Finset.range (l + 1), (l - i + 1)
      = ∑ i in Finset.range (l + 1), (i + 1) := by
    have hr := Finset.sum_range_reflect (fun j => j + 1) (l + 1)
    simpa using hr
  have hgauss : (∑ i in Finset.range (l + 1), i) * 2 = (l + 1) * l := by
    simpa using Finset.sum_range_id_mul_two (l + 1)
  have hsucc : ∑ i in Finset.range (l + 1), (i + 1)
      = (∑ i in Finset.range (l + 1), i) + (l + 1) := by
    rw [Finset.sum_add_distrib]; simp
  rw [hrefl, hsucc]
  calc ((∑ i in Finset.range (l + 1), i) + (l + 1)) * 2
      = (∑ i in Finset.range (l + 1), i) * 2 + (l + 1) * 2 := by ring
    _ = (l + 1) * l + (l + 1) * 2 := by rw [hgauss]
    _ = (l + 1) * (l + 2) := by ring

lemma cellPowers_length_mul_six (m : ℕ) : (cellPowers m).length * 6 = (m + 1) * (m + 2) * (m + 3) := by
  induction m with
  | zero => rfl
  | succ m ih =>
    have hsplit : cellPowers (m + 1) =
        cellPowers m ++ ((List.range (m + 2)).flatMap fun i =>
          (List.range (m + 1 - i + 1)).map fun j => (i, j, m + 1 - i - j)) := by
      simp [cellPowers, List.range_succ]
    rw [hsplit, List.length_append]
    have hl := cellPowers_layer_length (m + 1)
    calc ((cellPowers m).length +
          (((List.range (m + 2)).flatMap fun i =>
            (List.range (m + 1 - i + 1)).map fun j => (i, j, m + 1 - i - j)).length)) * 6
        = (cellPowers m).length * 6 +
          (((List.range (m + 2)).flatMap fun i =>
            (List.range (m + 1 - i + 1)).map fun j => (i, j, m + 1 - i - j)).length * 2) * 3 := by
          ring
      _ = (m + 1) * (m + 2) * (m + 3) + ((m + 2) * (m + 3)) * 3 := by rw [ih, hl]
      _ = (m + 2) * (m + 3) * (m + 4) := by ring

lemma cellPowers_length (m : ℕ) : (cellPowers m).length = dim_Pcell m := by
  have h := cellPowers_length_mul_six m
  exact (Nat.div_eq_of_eq_mul_left (by norm_num) h.symm).symm

lemma facePowers_length (m : ℕ) : (facePowers m).length = dim_Pface m := by
  have h := facePowers_length_mul_two m
  exact (Nat.div_eq_of_eq_mul_left (by norm_num) h.symm).symm

lemma mem_cellPowers (m a b c : ℕ) : (a, b, c) ∈ cellPowers m ↔ a + b + c ≤ m := by
  simp only [cellPowers, List.mem_flatMap, List.mem_map, List.mem_range, Prod.mk.injEq]
  constructor
  · rintro ⟨l, hl, i, hi, j, hj, h1, h2, h3⟩
    omega
  · intro h
    exact ⟨a + b + c, by omega, a, by omega, b, by omega, rfl, rfl, by omega⟩

lemma mem_facePowers (m a b : ℕ) : (a, b) ∈ facePowers m ↔ a + b ≤ m := by
  simp only [facePowers, List.mem_flatMap, List.mem_map, List.mem_range, Prod.mk.injEq]
  constructor
  · rintro ⟨l, hl, i, hi, h1, h2⟩
    omega
  · intro h
    exact ⟨a + b, by omega, a, by omega, rfl, by omega⟩

lemma mem_edgePowers (m i : ℕ) : i ∈ edgePowers m ↔ i ≤ m := by
  simp [edgePowers, Nat.lt_succ_iff]

/-- C5: the cell constructor generates exactly `(m+1)(m+2)(m+3)/6` exponent
tuples, the face constructor `(m+1)(m+2)/2` and the edge basis has `m+1`
slots; the tuples are exactly those of total degree at most `m`, generated by
the nested degree/exponent loops, with the `m = 1` sequences as listed. -/
theorem monomial_enumeration_spec :
    (∀ m, (cellPowers m).length = dim_Pcell m) ∧
    (∀ m, (facePowers m).length = dim_Pface m) ∧
    (∀ m, (edgePowers m).length = m + 1) ∧
    (∀ m a b c, (a, b, c) ∈ cellPowers m ↔ a + b + c ≤ m) ∧
    (∀ m a b, (a, b) ∈ facePowers m ↔ a + b ≤ m) ∧
    (∀ m i, i ∈ edgePowers m ↔ i ≤ m) ∧
    cellPowers 1 = [(0, 0, 0), (0, 0, 1), (0, 1, 0), (1, 0, 0)] ∧
    facePowers 1 = [(0, 0), (0, 1), (1, 0)] ∧
    edgePowers 1 = [0, 1] :=
  ⟨cellPowers_length, facePowers_length, fun m => by simp [edgePowers],
    mem_cellPowers, mem_facePowers, mem_edgePowers, by decide, by decide, by decide⟩

/-! ## Monomial basis evaluation (`basis.cpp` lines 13-113) -/

lemma cellPowers_eq_cons (m : ℕ) : ∃ t, cellPowers m = (0, 0, 0) :: t := by
  refine ⟨?_, ?_⟩
  · exact ((List.range m).map Nat.succ).flatMap fun l =>
      (List.range (l + 1)).flatMap fun i =>
        (List.range (l - i + 1)).map fun j => (i, j, l - i - j)
  · rw [cellPowers, List.range_succ_eq_map, List.flatMap_cons]
    rfl

lemma facePowers_eq_cons (m : ℕ) : ∃ t, facePowers m = (0, 0) :: t := by
  refine ⟨?_, ?_⟩
  · exact ((List.range m).map Nat.succ).flatMap fun l =>
      (List.range (l + 1)).map fun i => (i, l - i)
  · rw [facePowers, List.range_succ_eq_map, List.flatMap_cons]
    rfl

/-- State of `MonomialScalarBasisCell` (`basis.cpp` lines 13-26): degree, cell center
of mass `m_xT` and diameter `m_hT`; `m_powers` is `cellPowers degree`. -/
structure MonomialScalarBasisCell where
  degree : ℕ
  xT : Vec3
  hT : ℚ

namespace MonomialScalarBasisCell

def powers (b : MonomialScalarBasisCell) : List (ℕ × ℕ × ℕ) := cellPowers b.degree

/-- Modelled from the spec: `_coordinate_transform` (declared in `basis.hpp`,
not among the source files): `y = (x − centerOfMass) / diameter`,
componentwise. -/
def coordinate_transform (b : MonomialScalarBasisCell) (x : Vec3) : Vec3 :=
  Vec3.divScalar (x.sub b.xT) b.hT

/-- Source `MonomialScalarBasisCell::function` (`basis.cpp` lines 28-33). -/
def function (b : MonomialScalarBasisCell) (i : ℕ) (x : Vec3) : ℚ :=
  let y := b.coordinate_transform x
  let p := b.powers.getD i (0, 0, 0)
  y.x ^ p.1 * y.y ^ p.2.1 * y.z ^ p.2.2

/-- Source `MonomialScalarBasisCell::gradient` (`basis.cpp` lines 35-44). -/
def gradient (b : MonomialScalarBasisCell) (i : ℕ) (x : Vec3) : Vec3 :=
  let y := b.coordinate_transform x
  let p := b.powers.getD i (0, 0, 0)
  let grad : Vec3 :=
    ⟨if p.1 = 0 then 0 else (p.1 : ℚ) * y.x ^ (p.1 - 1) * y.y ^ p.2.1 * y.z ^ p.2.2,
     if p.2.1 = 0 then 0 else y.x ^ p.1 * (p.2.1 : ℚ) * y.y ^ (p.2.1 - 1) * y.z ^ p.2.2,
     if p.2.2 = 0 then 0 else y.x ^ p.1 * y.y ^ p.2.1 * (p.2.2 : ℚ) * y.z ^ (p.2.2 - 1)⟩
  grad.divScalar b.hT

end MonomialScalarBasisCell

/-- State of `MonomialScalarBasisFace` (`basis.cpp` lines 50-68): degree, face center
of mass `m_xF`, diameter `m_hF`, normal `m_nF`, and the two rows of
`m_jacobian` before the division by `m_hF` (`F.edge(0)->tangent()` and
`F.edge_normal(0)`); `m_powers` is `facePowers degree`. -/
structure MonomialScalarBasisFace where
  degree : ℕ
  xF : Vec3
  hF : ℚ
  nF : Vec3
  tangent : Vec3
  edge_normal : Vec3

namespace MonomialScalarBasisFace

def powers (b : MonomialScalarBasisFace) : List (ℕ × ℕ) := facePowers b.degree

/-- Row 0 of `m_jacobian` (after `m_jacobian /= m_hF`). -/
def jacobianRow0 (b : MonomialScalarBasisFace) : Vec3 := Vec3.divScalar b.tangent b.hF

/-- Row 1 of `m_jacobian` (after `m_jacobian /= m_hF`). -/
def jacobianRow1 (b : MonomialScalarBasisFace) : Vec3 := Vec3.divScalar b.edge_normal b.hF

/-- Modelled from the spec: `_coordinate_transform` for faces (declared in
`basis.hpp`, not among the source files): project `x − centerOfMass` on the
in-plane frame scaled by the diameter, i.e. `y = m_jacobian * (x − xF)`. -/
def coordinate_transform (b : MonomialScalarBasisFace) (x : Vec3) : ℚ × ℚ :=
  ((b.jacobianRow0).dot (x.sub b.xF), (b.jacobianRow1).dot (x.sub b.xF))

/-- Source `MonomialScalarBasisFace::function` (`basis.cpp` lines 70-75). -/
def function (b : MonomialScalarBasisFace) (i : ℕ) (x : Vec3) : ℚ :=
  let y := b.coordinate_transform x
  let p := b.powers.getD i (0, 0)
  y.1 ^ p.1 * y.2 ^ p.2

/-- Source `MonomialScalarBasisFace::gradient` (`basis.cpp` lines 77-85):
the 2D power-rule gradient lifted by `m_jacobian.transpose()`. -/
def gradient (b : MonomialScalarBasisFace) (i : ℕ) (x : Vec3) : Vec3 :=
  let y := b.coordinate_transform x
  let p := b.powers.getD i (0, 0)
  let g0 : ℚ := if p.1 = 0 then 0 else (p.1 : ℚ) * y.1 ^ (p.1 - 1) * y.2 ^ p.2
  let g1 : ℚ := if p.2 = 0 then 0 else y.1 ^ p.1 * (p.2 : ℚ) * y.2 ^ (p.2 - 1)
  (Vec3.smul g0 (jacobianRow0 b)).add (Vec3.smul g1 (jacobianRow1 b))

end MonomialScalarBasisFace

/-- State of `MonomialScalarBasisEdge` (`basis.cpp` lines 96-103): degree, edge center
of mass `m_xE`, diameter `m_hE` and unit tangent `m_tE`. -/
structure MonomialScalarBasisEdge where
  degree : ℕ
  xE : Vec3
  hE : ℚ
  tE : Vec3

namespace MonomialScalarBasisEdge

/-- Modelled from the spec: `_coordinate_transform` for edges (declared in
`basis.hpp`, not among the source files): the scalar projection of
`x − centerOfMass` on the unit tangent divided by the diameter. -/
def coordinate_transform (b : MonomialScalarBasisEdge) (x : Vec3) : ℚ :=
  ((x.sub b.xE).dot b.tE) / b.hE

/-- Source `MonomialScalarBasisEdge::function` (`basis.cpp` lines 105-108). -/
def function (b : MonomialScalarBasisEdge) (i : ℕ) (x : Vec3) : ℚ :=
  (b.coordinate_transform x) ^ i

/-- Source `MonomialScalarBasisEdge::gradient` (`basis.cpp` lines 110-113). -/
def gradient (b : MonomialScalarBasisEdge) (i : ℕ) (x : Vec3) : Vec3 :=
  Vec3.smul (if i = 0 then 0 else (i : ℚ) * (b.coordinate_transform x) ^ (i - 1) / b.hE) b.tE

end MonomialScalarBasisEdge

/-- C6: for every entity type (cell, face, edge), every degree and every
evaluation point, the slot-0 basis function evaluates to exactly 1 and its
gradient to exactly the zero vector. -/
theorem slot_zero_constant :
    (∀ (b : MonomialScalarBasisCell) (x : Vec3),
      b.function 0 x = 1 ∧ b.gradient 0 x = Vec3.zero) ∧
    (∀ (b : MonomialScalarBasisFace) (x : Vec3),
      b.function 0 x = 1 ∧ b.gradient 0 x = Vec3.zero) ∧
    (∀ (b : MonomialScalarBasisEdge) (x : Vec3),
      b.function 0 x = 1 ∧ b.gradient 0 x = Vec3.zero) := by
  refine ⟨fun b x => ?_, fun b x => ?_, fun b x => ?_⟩
  · obtain ⟨t, ht⟩ := cellPowers_eq_cons b.degree
    constructor
    · simp only [MonomialScalarBasisCell.function, MonomialScalarBasisCell.powers, ht,
        List.getD_cons_zero]
      norm_num
    · simp only [MonomialScalarBasisCell.gradient, MonomialScalarBasisCell.powers, ht,
        List.getD_cons_zero]
      simp [Vec3.divScalar, Vec3.zero]
  · obtain ⟨t, ht⟩ := facePowers_eq_cons b.degree
    constructor
    · simp only [MonomialScalarBasisFace.function, MonomialScalarBasisFace.powers, ht,
        List.getD_cons_zero]
      norm_num
    · simp only [MonomialScalarBasisFace.gradient, MonomialScalarBasisFace.powers, ht,
        List.getD_cons_zero]
      simp [Vec3.smul, Vec3.add, Vec3.zero]
  · constructor
    · simp [MonomialScalarBasisEdge.function]
    · simp [MonomialScalarBasisEdge.gradient, Vec3.smul, Vec3.zero]

/-! ## Gram matrices (`basis.cpp` lines 157-283) -/

/-- Entry `Σ_q w(q) · B1_i(q) · B2_j(q)` computed for a scalar pair by the
weighted componentwise product and `.sum()` (`basis.cpp` lines 206-217). -/
def scalarGramEntry (B1 B2 : SampledFamily ℚ) (qr : QuadratureRule) (i j : ℕ) : ℚ :=
  ∑ iqn in Finset.range qr.size, qr.w iqn * B1.val i iqn * B2.val j iqn

/-- Entry `Σ_q w(q) · (B1_i(q) ⋅ B2_j(q))` computed for a vector pair
(`basis.cpp` lines 261-269). -/
def vectorGramEntry (B1 B2 : SampledFamily Vec3) (qr : QuadratureRule) (i j : ℕ) : ℚ :=
  ∑ iqn in Finset.range qr.size, qr.w iqn * (B1.val i iqn).dot (B2.val j iqn)

/-- One row of the Gram-matrix loop (`basis.cpp` lines 200-219 and 255-271):
`jcut = i` exactly when `sym == "sym"`, else `0`; entries `j < jcut` are
copied from the transposed entry of the current state, entries
`jcut ≤ j < ncols` are computed by the weighted quadrature sum `entry i j`. -/
def gramRow (entry : ℕ → ℕ → ℚ) (ncols : ℕ) (sym : String) (i : ℕ)
    (M : ℕ → ℕ → ℚ) : ℕ → ℕ → ℚ :=
  let jcut := if sym = "sym" then i else 0
  let M1 := (List.range jcut).foldl (fun M' j => writeEntry M' i j (M' j i)) M
  (List.range' jcut (ncols - jcut)).foldl (fun M' j => writeEntry M' i j (entry i j)) M1

/-- The Gram-matrix row loop starting from `Eigen::MatrixXd::Zero`
(`basis.cpp` lines 199-219 and 254-271). -/
def gramLoop (entry : ℕ → ℕ → ℚ) (nrows ncols : ℕ) (sym : String) : ℕ → ℕ → ℚ :=
  (List.range nrows).foldl (fun M i => gramRow entry ncols sym i M) fun _ _ => 0

/-- Overload of `compute_gram_matrix` for scalar families with requested row/column
counts (`basis.cpp` lines 180-221). -/
def compute_gram_matrix_scalar (B1 B2 : SampledFamily ℚ) (qr : QuadratureRule)
    (nrows ncols : ℕ) (sym : String) : MatrixQ :=
  ⟨nrows, ncols, gramLoop (scalarGramEntry B1 B2 qr) nrows ncols sym⟩

/-- Overload of `compute_gram_matrix` for complete scalar families (`basis.cpp`
lines 224-231). -/
def compute_gram_matrix_scalar_full (B1 B2 : SampledFamily ℚ) (qr : QuadratureRule)
    (sym : String) : MatrixQ :=
  compute_gram_matrix_scalar B1 B2 qr B1.size B2.size sym

/-- Overload of `compute_gram_matrix` for vector families with requested row/column
counts (`basis.cpp` lines 235-273). -/
def compute_gram_matrix_vector (B1 B2 : SampledFamily Vec3) (qr : QuadratureRule)
    (nrows ncols : ℕ) (sym : String) : MatrixQ :=
  ⟨nrows, ncols, gramLoop (vectorGramEntry B1 B2 qr) nrows ncols sym⟩

/-- Overload of `compute_gram_matrix` for complete vector families (`basis.cpp`
lines 276-283). -/
def compute_gram_matrix_vector_full (B1 B2 : SampledFamily Vec3) (qr : QuadratureRule)
    (sym : String) : MatrixQ :=
  compute_gram_matrix_vector B1 B2 qr B1.size B2.size sym

/-- The `k`-th ambient unit vector `ek` (`basis.cpp` lines 167-168). -/
def ek (k : ℕ) : Vec3 :=
  ⟨if k = 0 then 1 else 0, if k = 1 then 1 else 0, if k = 2 then 1 else 0⟩

/-- The total the innermost quadrature loop of the vector×scalar overload
accumulates into entry `(i, k·B2.size + j)` (`basis.cpp` lines 170-172). -/
def vecScalarEntry (B1 : SampledFamily Vec3) (B2 : SampledFamily ℚ)
    (qr : QuadratureRule) (i k j : ℕ) : ℚ :=
  ∑ iqn in Finset.range qr.size, qr.w iqn * (B1.val i iqn).dot (ek k) * B2.val j iqn

/-- The accumulation loops of the vector×scalar overload (`basis.cpp`
lines 165-175): for `i < B1.size`, `k < dimspace`, `j < B2.size`, entry
`(i, k·B2.size + j)` accumulates the quadrature sum `vecScalarEntry`. -/
def vsLoop (B1 : SampledFamily Vec3) (B2 : SampledFamily ℚ)
    (qr : QuadratureRule) : ℕ → ℕ → ℚ :=
  (List.range B1.size).foldl
    (fun M i => (List.range dimspace).foldl
      (fun M' k => (List.range B2.size).foldl
        (fun M'' j => writeEntry M'' i (k * B2.size + j)
          (M'' i (k * B2.size + j) + vecScalarEntry B1 B2 qr i k j)) M') M)
    fun _ _ => 0

/-- Overload of `compute_gram_matrix` for a vector family against a tensorialised scalar
family (`basis.cpp` lines 157-177). -/
def compute_gram_matrix_vecscalar (B1 : SampledFamily Vec3) (B2 : SampledFamily ℚ)
    (qr : QuadratureRule) : MatrixQ :=
  ⟨B1.size, dimspace * B2.size, vsLoop B1 B2 qr⟩

/-- The scalar×scalar overload behind its `assert`s (`basis.cpp`
lines 188-191): `none` models the fatal precondition failure. -/
def compute_gram_matrix_scalar_checked (B1 B2 : SampledFamily ℚ) (qr : QuadratureRule)
    (nrows ncols : ℕ) (sym : String) : Option MatrixQ :=
  if (qr.size = B1.nNodes ∧ qr.size = B2.nNodes) ∧ nrows ≤ B1.size ∧ ncols ≤ B2.size
  then some (compute_gram_matrix_scalar B1 B2 qr nrows ncols sym) else none

/-- The vector×vector overload behind its `assert`s (`basis.cpp`
lines 243-246). -/
def compute_gram_matrix_vector_checked (B1 B2 : SampledFamily Vec3) (qr : QuadratureRule)
    (nrows ncols : ℕ) (sym : String) : Option MatrixQ :=
  if (qr.size = B1.nNodes ∧ qr.size = B2.nNodes) ∧ nrows ≤ B1.size ∧ ncols ≤ B2.size
  then some (compute_gram_matrix_vector B1 B2 qr nrows ncols sym) else none

/-- The vector×scalar overload behind its `assert` (`basis.cpp` line 162). -/
def compute_gram_matrix_vecscalar_checked (B1 : SampledFamily Vec3)
    (B2 : SampledFamily ℚ) (qr : QuadratureRule) : Option MatrixQ :=
  if qr.size = B1.nNodes ∧ qr.size = B2.nNodes
  then some (compute_gram_matrix_vecscalar B1 B2 qr) else none

/-- The reads `M(j, i)` performed by the copy-from-transpose step, as
(row, column) index pairs in loop order (`basis.cpp` lines 200-205 and
255-260). -/
def copyReads (nrows : ℕ) (sym : String) : List (ℕ × ℕ) :=
  (List.range nrows).flatMap fun i =>
    (List.range (if sym = "sym" then i else 0)).map fun j => (j, i)

/-! ### Loop invariants for the Gram-matrix folds -/

lemma writeEntry_same (M : ℕ → ℕ → ℚ) (i j : ℕ) (v : ℚ) :
    writeEntry M i j v i j = v := by
  simp [writeEntry]

lemma writeEntry_ne (M : ℕ → ℕ → ℚ) (i j : ℕ) (v : ℚ) (a b : ℕ)
    (h : ¬(a = i ∧ b = j)) : writeEntry M i j v a b = M a b := by
  simp [writeEntry, h]

/-- Positions the copy step of row `i` did not write keep their value. -/
lemma copyFold_untouched (i : ℕ) : ∀ (c : ℕ) (M : ℕ → ℕ → ℚ) (a b : ℕ),
    ¬(a = i ∧ b < c) →
    ((List.range c).foldl (fun M' j => writeEntry M' i j (M' j i)) M) a b = M a b := by
  intro c
  induction c with
  | zero => intro M a b _; simp
  | succ c ih =>
    intro M a b h
    rw [List.range_succ, List.foldl_append, List.foldl_cons, List.foldl_nil,
      writeEntry_ne _ _ _ _ _ _ (by omega), ih M a b (by omega)]

/-- The copy step of row `i` writes `M(i, b) = M(b, i)` for `b < jcut ≤ i`,
reading the state the row started from. -/
lemma copyFold_at (i : ℕ) : ∀ (c : ℕ) (M : ℕ → ℕ → ℚ) (b : ℕ), c ≤ i → b < c →
    ((List.range c).foldl (fun M' j => writeEntry M' i j (M' j i)) M) i b = M b i := by
  intro c
  induction c with
  | zero => intro M b _ hb; exact absurd hb (Nat.not_lt_zero b)
  | succ c ih =>
    intro M b hc hb
    rw [List.range_succ, List.foldl_append, List.foldl_cons, List.foldl_nil]
    rcases Nat.lt_or_ge b c with hb' | hb'
    · rw [writeEntry_ne _ _ _ _ _ _ (by omega), ih M b (by omega) hb']
    · have hbc : b = c := by omega
      rw [hbc, writeEntry_same, copyFold_untouched i c M c i (by omega)]

/-- Positions the compute step of row `i` did not write keep their value. -/
lemma computeFold_untouched (entry : ℕ → ℕ → ℚ) (i : ℕ) :
    ∀ (n s : ℕ) (M : ℕ → ℕ → ℚ) (a b : ℕ), ¬(a = i ∧ s ≤ b ∧ b < s + n) →
    ((List.range' s n).foldl (fun M' j => writeEntry M' i j (entry i j)) M) a b = M a b := by
  intro n
  induction n with
  | zero => intro s M a b _; simp
  | succ n ih =>
    intro s M a b h
    rw [List.range'_succ, List.foldl_cons, ih (s + 1) _ a b (by omega),
      writeEntry_ne _ _ _ _ _ _ (by omega)]

/-- The compute step of row `i` writes `entry i b` at every column
`s ≤ b < s + n`. -/
lemma computeFold_at (entry : ℕ → ℕ → ℚ) (i : ℕ) :
    ∀ (n s : ℕ) (M : ℕ → ℕ → ℚ) (b : ℕ), s ≤ b → b < s + n →
    ((List.range' s n).foldl (fun M' j => writeEntry M' i j (entry i j)) M) i b
      = entry i b := by
  intro n
  induction n with
  | zero => intro s M b hs hb; exact absurd hb (by omega)
  | succ n ih =>
    intro s M b hs hb
    rw [List.range'_succ, List.foldl_cons]
    rcases Nat.lt_or_ge b (s + 1) with hb' | hb'
    · have hbs : b = s := by omega
      rw [hbs, computeFold_untouched entry i n (s + 1) _ i s (by omega), writeEntry_same]
    · exact ih (s + 1) _ b hb' (by omega)

/-- Closed form of one row of the loop when `sym` is exactly `"sym"`:
columns `b < i` copy the transposed entry of the incoming state, columns
`i ≤ b < ncols` get the fresh quadrature sum, everything else is kept. -/
lemma gramRow_sym_val (entry : ℕ → ℕ → ℚ) (ncols : ℕ) (sym : String)
    (hsym : sym = "sym") (i : ℕ) (M : ℕ → ℕ → ℚ) (a b : ℕ) :
    gramRow entry ncols sym i M a b =
      if a = i then
        (if b < i then M b i else if b < ncols then entry i b else M a b)
      else M a b := by
  simp only [gramRow]
  rw [if_pos hsym]
  by_cases ha : a = i
  · rw [ha]
    by_cases hb : b < i
    · rw [computeFold_untouched entry i (ncols - i) i _ i b (by omega),
        copyFold_at i i M b (le_refl i) hb]
      simp [hb]
    · by_cases hbc : b < ncols
      · rw [computeFold_at entry i (ncols - i) i _ b (by omega) (by omega)]
        simp [hb, hbc]
      · rw [computeFold_untouched entry i (ncols - i) i _ i b (by omega),
          copyFold_untouched i i M i b (by omega)]
        simp [hb, hbc]
  · rw [computeFold_untouched entry i (ncols - i) i _ a b (by omega),
      copyFold_untouched i i M a b (by omega)]
    simp [ha]

/-- Closed form of one row of the loop when `sym` is any other string:
`jcut = 0`, there is no copy, and all columns `b < ncols` get the fresh
quadrature sum. -/
lemma gramRow_nonsym_val (entry : ℕ → ℕ → ℚ) (ncols : ℕ) (sym : String)
    (hs : sym ≠ "sym") (i : ℕ) (M : ℕ → ℕ → ℚ) (a b : ℕ) :
    gramRow entry ncols sym i M a b =
      if a = i then (if b < ncols then entry i b else M a b) else M a b := by
  simp only [gramRow]
  rw [if_neg hs]
  simp only [List.range_zero, List.foldl_nil]
  by_cases ha : a = i
  · rw [ha]
    by_cases hb : b < ncols
    · rw [computeFold_at entry i (ncols - 0) 0 M b (by omega) (by omega)]
      simp [hb]
    · rw [computeFold_untouched entry i (ncols - 0) 0 M i b (by omega)]
      simp [hb]
  · rw [computeFold_untouched entry i (ncols - 0) 0 M a b (by omega)]
    simp [ha]

/-- Closed form of the whole loop in symmetric mode: for `a < nrows`, the
entry below the diagonal is the transposed quadrature sum when that sum was
ever written (`a < ncols`), and `0` otherwise. -/
lemma gramLoop_sym_val (entry : ℕ → ℕ → ℚ) (nrows ncols : ℕ) (a b : ℕ) :
    gramLoop entry nrows ncols "sym" a b =
      if a < nrows then
        (if b < a then (if a < ncols then entry b a else 0)
         else if b < ncols then entry a b else 0)
      else 0 := by
  induction nrows generalizing a b with
  | zero => simp [gramLoop]
  | succ n ih =>
    rw [gramLoop, List.range_succ, List.foldl_append, List.foldl_cons, List.foldl_nil]
    rw [show ((List.range n).foldl (fun M i => gramRow entry ncols "sym" i M)
      fun _ _ => 0) = gramLoop entry n ncols "sym" from rfl]
    rw [gramRow_sym_val entry ncols "sym" rfl]
    by_cases ha : a = n
    · rw [ha]
      simp only [ih]
      split_ifs <;> first | rfl | omega
    · rw [if_neg ha]
      simp only [ih]
      split_ifs <;> first | rfl | omega

/-- Closed form of the whole loop in any non-`"sym"` mode: every in-range
entry is the fresh quadrature sum. -/
lemma gramLoop_nonsym_val (entry : ℕ → ℕ → ℚ) (nrows ncols : ℕ) (sym : String)
    (hs : sym ≠ "sym") (a b : ℕ) :
    gramLoop entry nrows ncols sym a b =
      if a < nrows then (if b < ncols then entry a b else 0) else 0 := by
  induction nrows generalizing a b with
  | zero => simp [gramLoop]
  | succ n ih =>
    rw [gramLoop, List.range_succ, List.foldl_append, List.foldl_cons, List.foldl_nil]
    rw [show ((List.range n).foldl (fun M i => gramRow entry ncols sym i M)
      fun _ _ => 0) = gramLoop entry n ncols sym from rfl]
    rw [gramRow_nonsym_val entry ncols sym hs]
    by_cases ha : a = n
    · rw [ha]
      simp only [ih]
      split_ifs <;> first | rfl | omega
    · simp only [ih]
      split_ifs <;> first | rfl | omega

/-! ### Loop invariants for the vector×scalar accumulation -/

lemma vsInnerFold_untouched (B1 : SampledFamily Vec3) (B2 : SampledFamily ℚ)
    (qr : QuadratureRule) (i k : ℕ) : ∀ (c : ℕ) (M : ℕ → ℕ → ℚ) (a b : ℕ),
    ¬(a = i ∧ k * B2.size ≤ b ∧ b < k * B2.size + c) →
    ((List.range c).foldl (fun M'' j => writeEntry M'' i (k * B2.size + j)
      (M'' i (k * B2.size + j) + vecScalarEntry B1 B2 qr i k j)) M) a b = M a b := by
  intro c
  induction c with
  | zero => intro M a b _; simp
  | succ c ih =>
    intro M a b h
    rw [List.range_succ, List.foldl_append, List.foldl_cons, List.foldl_nil,
      writeEntry_ne _ _ _ _ _ _ (by omega), ih M a b (by omega)]

lemma vsInnerFold_at (B1 : SampledFamily Vec3) (B2 : SampledFamily ℚ)
    (qr : QuadratureRule) (i k : ℕ) : ∀ (c : ℕ) (M : ℕ → ℕ → ℚ) (t : ℕ), t < c →
    ((List.range c).foldl (fun M'' j => writeEntry M'' i (k * B2.size + j)
      (M'' i (k * B2.size + j) + vecScalarEntry B1 B2 qr i k j)) M) i (k * B2.size + t)
      = M i (k * B2.size + t) + vecScalarEntry B1 B2 qr i k t := by
  intro c
  induction c with
  | zero => intro M t ht; exact absurd ht (Nat.not_lt_zero t)
  | succ c ih =>
    intro M t ht
    rw [List.range_succ, List.foldl_append, List.foldl_cons, List.foldl_nil]
    rcases Nat.lt_or_ge t c with ht' | ht'
    · rw [writeEntry_ne _ _ _ _ _ _ (by omega), ih M t ht']
    · have htc : t = c := by omega
      rw [htc, writeEntry_same,
        vsInnerFold_untouched B1 B2 qr i k c M i (k * B2.size + c) (by omega)]

lemma vsMiddleFold_untouched (B1 : SampledFamily Vec3) (B2 : SampledFamily ℚ)
    (qr : QuadratureRule) (i : ℕ) : ∀ (ks : ℕ) (M : ℕ → ℕ → ℚ) (a b : ℕ),
    ¬(a = i ∧ b < ks * B2.size) →
    ((List.range ks).foldl (fun M' k => (List.range B2.size).foldl
      (fun M'' j => writeEntry M'' i (k * B2.size + j)
        (M'' i (k * B2.size + j) + vecScalarEntry B1 B2 qr i k j)) M') M) a b
      = M a b := by
  intro ks
  induction ks with
  | zero => intro M a b _; simp
  | succ ks ih =>
    intro M a b h
    rw [List.range_succ, List.foldl_append, List.foldl_cons, List.foldl_nil]
    have hmul : ks * B2.size + B2.size = (ks + 1) * B2.size := by ring
    rw [vsInnerFold_untouched B1 B2 qr i ks B2.size _ a b (by omega),
      ih M a b (by omega)]

lemma vsMiddleFold_at (B1 : SampledFamily Vec3) (B2 : SampledFamily ℚ)
    (qr : QuadratureRule) (i : ℕ) : ∀ (ks : ℕ) (M : ℕ → ℕ → ℚ) (k t : ℕ),
    k < ks → t < B2.size →
    ((List.range ks).foldl (fun M' k => (List.range B2.size).foldl
      (fun M'' j => writeEntry M'' i (k * B2.size + j)
        (M'' i (k * B2.size + j) + vecScalarEntry B1 B2 qr i k j)) M') M)
      i (k * B2.size + t)
      = M i (k * B2.size + t) + vecScalarEntry B1 B2 qr i k t := by
  intro ks
  induction ks with
  | zero => intro M k t hk _; exact absurd hk (Nat.not_lt_zero k)
  | succ ks ih =>
    intro M k t hk ht
    rw [List.range_succ, List.foldl_append, List.foldl_cons, List.foldl_nil]
    rcases Nat.lt_or_ge k ks with hk' | hk'
    · have hmul : (k + 1) * B2.size ≤ ks * B2.size :=
        Nat.mul_le_mul_right B2.size (by omega)
      have hmul2 : k * B2.size + B2.size = (k + 1) * B2.size := by ring
      rw [vsInnerFold_untouched B1 B2 qr i ks B2.size _ i (k * B2.size + t) (by omega),
        ih M k t hk' ht]
    · have hkk : k = ks := by omega
      rw [hkk, vsInnerFold_at B1 B2 qr i ks B2.size _ t ht,
        vsMiddleFold_untouched B1 B2 qr i ks M i (ks * B2.size + t) (by omega)]

lemma vsOuterFold_untouched (B1 : SampledFamily Vec3) (B2 : SampledFamily ℚ)
    (qr : QuadratureRule) : ∀ (rs : ℕ) (M : ℕ → ℕ → ℚ) (a b : ℕ), rs ≤ a →
    ((List.range rs).foldl (fun M i => (List.range dimspace).foldl
      (fun M' k => (List.range B2.size).foldl
        (fun M'' j => writeEntry M'' i (k * B2.size + j)
          (M'' i (k * B2.size + j) + vecScalarEntry B1 B2 qr i k j)) M') M) M) a b
      = M a b := by
  intro rs
  induction rs with
  | zero => intro M a b _; simp
  | succ rs ih =>
    intro M a b h
    rw [List.range_succ, List.foldl_append, List.foldl_cons, List.foldl_nil,
      vsMiddleFold_untouched B1 B2 qr rs _ _ a b (by omega), ih M a b (by omega)]

lemma vsOuterFold_at (B1 : SampledFamily Vec3) (B2 : SampledFamily ℚ)
    (qr : QuadratureRule) : ∀ (rs : ℕ) (M : ℕ → ℕ → ℚ) (a k t : ℕ),
    a < rs → k < dimspace → t < B2.size →
    ((List.range rs).foldl (fun M i => (List.range dimspace).foldl
      (fun M' k => (List.range B2.size).foldl
        (fun M'' j => writeEntry M'' i (k * B2.size + j)
          (M'' i (k * B2.size + j) + vecScalarEntry B1 B2 qr i k j)) M') M) M)
      a (k * B2.size + t)
      = M a (k * B2.size + t) + vecScalarEntry B1 B2 qr a k t := by
  intro rs
  induction rs with
  | zero => intro M a k t ha _ _; exact absurd ha (Nat.not_lt_zero a)
  | succ rs ih =>
    intro M a k t ha hk ht
    rw [List.range_succ, List.foldl_append, List.foldl_cons, List.foldl_nil]
    rcases Nat.lt_or_ge a rs with ha' | ha'
    · rw [vsMiddleFold_untouched B1 B2 qr rs _ _ a (k * B2.size + t) (by omega),
        ih M a k t ha' hk ht]
    · have haa : a = rs := by omega
      rw [haa, vsMiddleFold_at B1 B2 qr rs dimspace _ k t hk ht,
        vsOuterFold_untouched B1 B2 qr rs M rs (k * B2.size + t) (le_refl rs)]

/-- Closed form of the vector×scalar accumulation loops at the position the
source writes for row `i`, axis `k` and column `j`. -/
lemma vsLoop_val (B1 : SampledFamily Vec3) (B2 : SampledFamily ℚ) (qr : QuadratureRule)
    (i k j : ℕ) (hi : i < B1.size) (hk : k < dimspace) (hj : j < B2.size) :
    vsLoop B1 B2 qr i (k * B2.size + j) = vecScalarEntry B1 B2 qr i k j := by
  rw [vsLoop, vsOuterFold_at B1 B2 qr B1.size _ i k j hi hk hj]
  simp

lemma mem_copyReads_sym (nrows : ℕ) (p : ℕ × ℕ) :
    p ∈ copyReads nrows "sym" ↔ p.2 < nrows ∧ p.1 < p.2 := by
  obtain ⟨a, b⟩ := p
  simp only [copyReads, List.mem_flatMap, List.mem_map, List.mem_range, Prod.mk.injEq, if_true]
  constructor
  · rintro ⟨i, hi, j, hj, h1, h2⟩
    omega
  · rintro ⟨h2, h1⟩
    exact ⟨b, h2, a, by omega, rfl, rfl⟩

/-! ## Claim theorems on the Gram-matrix engine -/

/-- C3: `compute_gram_matrix` returns a matrix of dimensions exactly
`nrows × ncols` whose entry `(i,j)` is the quadrature-weighted sum of
products (scalar×scalar) or of 3D dot products (vector×vector); the
vector×scalar overload returns `nrows × (dimspace · ncols)` with column
block `k` holding the sums of `(B1_i(q) ⋅ e_k) · B2_j(q)`.  (The embedding
is a pure function, so the inputs are not mutated by construction; the
stated entries are those of the general, non-`"sym"` computation path, the
`"sym"` copy path being the subject of C4 and C10.) -/
theorem compute_gram_matrix_entries :
    (∀ (B1 B2 : SampledFamily ℚ) (qr : QuadratureRule) (nrows ncols : ℕ) (sym : String),
      qr.size = B1.nNodes → qr.size = B2.nNodes →
      nrows ≤ B1.size → ncols ≤ B2.size → sym ≠ "sym" →
      (compute_gram_matrix_scalar B1 B2 qr nrows ncols sym).rows = nrows ∧
      (compute_gram_matrix_scalar B1 B2 qr nrows ncols sym).cols = ncols ∧
      ∀ i j, i < nrows → j < ncols →
        (compute_gram_matrix_scalar B1 B2 qr nrows ncols sym).val i j
          = ∑ iqn in Finset.range qr.size,
              qr.w iqn * (B1.val i iqn * B2.val j iqn)) ∧
    (∀ (B1 B2 : SampledFamily Vec3) (qr : QuadratureRule) (nrows ncols : ℕ) (sym : String),
      qr.size = B1.nNodes → qr.size = B2.nNodes →
      nrows ≤ B1.size → ncols ≤ B2.size → sym ≠ "sym" →
      (compute_gram_matrix_vector B1 B2 qr nrows ncols sym).rows = nrows ∧
      (compute_gram_matrix_vector B1 B2 qr nrows ncols sym).cols = ncols ∧
      ∀ i j, i < nrows → j < ncols →
        (compute_gram_matrix_vector B1 B2 qr nrows ncols sym).val i j
          = ∑ iqn in Finset.range qr.size,
              qr.w iqn * (B1.val i iqn).dot (B2.val j iqn)) ∧
    (∀ (B1 : SampledFamily Vec3) (B2 : SampledFamily ℚ) (qr : QuadratureRule),
      qr.size = B1.nNodes → qr.size = B2.nNodes →
      (compute_gram_matrix_vecscalar B1 B2 qr).rows = B1.size ∧
      (compute_gram_matrix_vecscalar B1 B2 qr).cols = dimspace * B2.size ∧
      ∀ i k j, i < B1.size → k < dimspace → j < B2.size →
        (compute_gram_matrix_vecscalar B1 B2 qr).val i (k * B2.size + j)
          = ∑ iqn in Finset.range qr.size,
              qr.w iqn * (B1.val i iqn).dot (ek k) * B2.val j iqn) := by
  refine ⟨fun B1 B2 qr nrows ncols sym _ _ _ _ hs => ⟨rfl, rfl, fun i j hi hj => ?_⟩,
    fun B1 B2 qr nrows ncols sym _ _ _ _ hs => ⟨rfl, rfl, fun i j hi hj => ?_⟩,
    fun B1 B2 qr _ _ => ⟨rfl, rfl, fun i k j hi hk hj => ?_⟩⟩
  · show gramLoop (scalarGramEntry B1 B2 qr) nrows ncols sym i j = _
    rw [gramLoop_nonsym_val _ _ _ _ hs, if_pos hi, if_pos hj]
    simp [scalarGramEntry, mul_assoc]
  · show gramLoop (vectorGramEntry B1 B2 qr) nrows ncols sym i j = _
    rw [gramLoop_nonsym_val _ _ _ _ hs, if_pos hi, if_pos hj]
    rfl
  · show vsLoop B1 B2 qr i (k * B2.size + j) = _
    rw [vsLoop_val B1 B2 qr i k j hi hk hj]
    rfl

/-- C4: in symmetric mode with `B1 = B2` and full (equal) row and column
counts, the returned matrix equals its own transpose exactly, because every
entry with column index below the row index is assigned by copying the
already-computed transposed entry. -/
theorem compute_gram_matrix_sym_exact_transpose :
    (∀ (B : SampledFamily ℚ) (qr : QuadratureRule), qr.size = B.nNodes →
      ∀ i j, i < B.size → j < B.size →
        (compute_gram_matrix_scalar_full B B qr "sym").val i j
          = (compute_gram_matrix_scalar_full B B qr "sym").val j i) ∧
    (∀ (B : SampledFamily Vec3) (qr : QuadratureRule), qr.size = B.nNodes →
      ∀ i j, i < B.size → j < B.size →
        (compute_gram_matrix_vector_full B B qr "sym").val i j
          = (compute_gram_matrix_vector_full B B qr "sym").val j i) := by
  constructor
  · intro B qr _ i j hi hj
    show gramLoop (scalarGramEntry B B qr) B.size B.size "sym" i j
      = gramLoop (scalarGramEntry B B qr) B.size B.size "sym" j i
    rcases lt_trichotomy i j with h | h | h
    · rw [gramLoop_sym_val, gramLoop_sym_val]
      split_ifs <;> first | rfl | omega
    · rw [h]
    · rw [gramLoop_sym_val, gramLoop_sym_val]
      split_ifs <;> first | rfl | omega
  · intro B qr _ i j hi hj
    show gramLoop (vectorGramEntry B B qr) B.size B.size "sym" i j
      = gramLoop (vectorGramEntry B B qr) B.size B.size "sym" j i
    rcases lt_trichotomy i j with h | h | h
    · rw [gramLoop_sym_val, gramLoop_sym_val]
      split_ifs <;> first | rfl | omega
    · rw [h]
    · rw [gramLoop_sym_val, gramLoop_sym_val]
      split_ifs <;> first | rfl | omega

/-- C7: each `compute_gram_matrix` overload fails its `assert` (modelled as
`none`) exactly when the quadrature node count differs from a family's
sampled node count or a requested row/column count exceeds the family size;
under satisfied preconditions no failure occurs. -/
theorem compute_gram_matrix_precondition_failure :
    (∀ (B1 B2 : SampledFamily ℚ) (qr : QuadratureRule) (nrows ncols : ℕ) (sym : String),
      compute_gram_matrix_scalar_checked B1 B2 qr nrows ncols sym = none
        ↔ (qr.size ≠ B1.nNodes ∨ qr.size ≠ B2.nNodes ∨
            B1.size < nrows ∨ B2.size < ncols)) ∧
    (∀ (B1 B2 : SampledFamily Vec3) (qr : QuadratureRule) (nrows ncols : ℕ) (sym : String),
      compute_gram_matrix_vector_checked B1 B2 qr nrows ncols sym = none
        ↔ (qr.size ≠ B1.nNodes ∨ qr.size ≠ B2.nNodes ∨
            B1.size < nrows ∨ B2.size < ncols)) ∧
    (∀ (B1 : SampledFamily Vec3) (B2 : SampledFamily ℚ) (qr : QuadratureRule),
      compute_gram_matrix_vecscalar_checked B1 B2 qr = none
        ↔ (qr.size ≠ B1.nNodes ∨ qr.size ≠ B2.nNodes)) := by
  refine ⟨fun B1 B2 qr nrows ncols sym => ?_, fun B1 B2 qr nrows ncols sym => ?_,
    fun B1 B2 qr => ?_⟩
  · rw [compute_gram_matrix_scalar_checked]
    split_ifs with h
    · constructor
      · intro hc; exact absurd hc (by simp)
      · intro hc; exfalso; omega
    · constructor
      · intro _; omega
      · intro _; rfl
  · rw [compute_gram_matrix_vector_checked]
    split_ifs with h
    · constructor
      · intro hc; exact absurd hc (by simp)
      · intro hc; exfalso; omega
    · constructor
      · intro _; omega
      · intro _; rfl
  · rw [compute_gram_matrix_vecscalar_checked]
    split_ifs with h
    · constructor
      · intro hc; exact absurd hc (by simp)
      · intro hc; exfalso; omega
    · constructor
      · intro _; omega
      · intro _; rfl

/-- C9: with the `"sym"` flag, every read `M(j, i)` of the copy-from-transpose
step stays inside the `nrows × ncols` result when `nrows ≤ ncols`; whenever
`2 ≤ nrows` and `ncols < nrows`, some read has column index `≥ ncols` and, on
the result matrix, the bounds-checked access returns `none`. -/
theorem gram_sym_copy_read_bounds :
    (∀ nrows ncols : ℕ, nrows ≤ ncols →
      ∀ p ∈ copyReads nrows "sym", p.1 < nrows ∧ p.2 < ncols) ∧
    (∀ nrows ncols : ℕ, 2 ≤ nrows → ncols < nrows →
      ∃ p ∈ copyReads nrows "sym", ncols ≤ p.2 ∧
        (∀ (B1 B2 : SampledFamily ℚ) (qr : QuadratureRule),
          (compute_gram_matrix_scalar B1 B2 qr nrows ncols "sym").read p.1 p.2 = none) ∧
        (∀ (B1 B2 : SampledFamily Vec3) (qr : QuadratureRule),
          (compute_gram_matrix_vector B1 B2 qr nrows ncols "sym").read p.1 p.2 = none)) ∧
    (∀ nrows ncols : ℕ, 2 ≤ nrows →
      (∀ p ∈ copyReads nrows "sym", p.1 < nrows ∧ p.2 < ncols) → nrows ≤ ncols) := by
  refine ⟨fun nrows ncols hle p hp => ?_, fun nrows ncols h2 hlt => ?_,
    fun nrows ncols h2 hall => ?_⟩
  · rw [mem_copyReads_sym] at hp
    omega
  · refine ⟨(0, nrows - 1), ?_, by omega, fun B1 B2 qr => ?_, fun B1 B2 qr => ?_⟩
    · rw [mem_copyReads_sym]
      omega
    · simp only [compute_gram_matrix_scalar, MatrixQ.read]
      rw [if_neg (by omega)]
    · simp only [compute_gram_matrix_vector, MatrixQ.read]
      rw [if_neg (by omega)]
  · have hmem : (0, nrows - 1) ∈ copyReads nrows "sym" := by
      rw [mem_copyReads_sym]
      omega
    have := hall (0, nrows - 1) hmem
    omega

/-- C10: the copy-from-transpose path triggers only when `sym` is exactly
the string `"sym"`: for every other string the result equals the one for any
other non-`"sym"` string and every in-range entry is the full weighted
quadrature sum. -/
theorem gram_sym_flag_requires_exact_string :
    (∀ (B1 B2 : SampledFamily ℚ) (qr : QuadratureRule) (nrows ncols : ℕ)
        (sym sym' : String), sym ≠ "sym" → sym' ≠ "sym" →
      compute_gram_matrix_scalar B1 B2 qr nrows ncols sym
        = compute_gram_matrix_scalar B1 B2 qr nrows ncols sym' ∧
      ∀ i j, i < nrows → j < ncols →
        (compute_gram_matrix_scalar B1 B2 qr nrows ncols sym).val i j
          = scalarGramEntry B1 B2 qr i j) ∧
    (∀ (B1 B2 : SampledFamily Vec3) (qr : QuadratureRule) (nrows ncols : ℕ)
        (sym sym' : String), sym ≠ "sym" → sym' ≠ "sym" →
      compute_gram_matrix_vector B1 B2 qr nrows ncols sym
        = compute_gram_matrix_vector B1 B2 qr nrows ncols sym' ∧
      ∀ i j, i < nrows → j < ncols →
        (compute_gram_matrix_vector B1 B2 qr nrows ncols sym).val i j
          = vectorGramEntry B1 B2 qr i j) := by
  constructor
  · intro B1 B2 qr nrows ncols sym sym' hs hs'
    constructor
    · simp only [compute_gram_matrix_scalar, MatrixQ.mk.injEq]
      refine ⟨trivial, trivial, ?_⟩
      funext a b
      rw [gramLoop_nonsym_val _ _ _ _ hs, gramLoop_nonsym_val _ _ _ _ hs']
    · intro i j hi hj
      show gramLoop (scalarGramEntry B1 B2 qr) nrows ncols sym i j = _
      rw [gramLoop_nonsym_val _ _ _ _ hs, if_pos hi, if_pos hj]
  · intro B1 B2 qr nrows ncols sym sym' hs hs'
    constructor
    · simp only [compute_gram_matrix_vector, MatrixQ.mk.injEq]
      refine ⟨trivial, trivial, ?_⟩
      funext a b
      rw [gramLoop_nonsym_val _ _ _ _ hs, gramLoop_nonsym_val _ _ _ _ hs']
    · intro i j hi hj
      show gramLoop (vectorGramEntry B1 B2 qr) nrows ncols sym i j = _
      rw [gramLoop_nonsym_val _ _ _ _ hs, if_pos hi, if_pos hj]

/-! ## HybridCore (`hybridcore.hpp`) -/

/-- The construction-time data `HybridCore::interpolate` and the quadrature
helpers read: the counts and degrees fixed by the constructor, plus the
external collaborators the spec declares out of scope (mesh geometry and
topology, the quadrature-rule generator `generate_quadrature_rule`, the
basis families built at construction, `compute_weights`, and Eigen's
`ldlt().solve`). -/
structure HCEnv where
  nCells : ℕ
  nFaces : ℕ
  K : ℕ
  L : ℤ
  nlocal_cell_dofs : ℕ
  nlocal_face_dofs : ℕ
  cellNFaces : ℕ → ℕ
  cellFaceIdx : ℕ → ℕ → ℕ
  cellCenter : ℕ → Vec3
  faceCenter : ℕ → Vec3
  quadCell : ℕ → ℕ → QuadratureRule
  quadFace : ℕ → ℕ → QuadratureRule
  cellBasisFn : ℕ → ℕ → Vec3 → ℚ
  faceBasisFn : ℕ → ℕ → Vec3 → ℚ
  computeWeights : ℕ → ℕ → ℚ
  ldltSolve : MatrixQ → (ℕ → ℚ) → (ℕ → ℚ)

/-- Member `_ntotal_cell_dofs`: set by the constructor (body not among the source
files) to cells × per-cell dofs, per the spec's DOF counts. -/
def ntotal_cell_dofs (env : HCEnv) : ℕ := env.nCells * env.nlocal_cell_dofs

/-- Member `_ntotal_face_dofs`: faces × per-face dofs, per the spec's DOF counts. -/
def ntotal_face_dofs (env : HCEnv) : ℕ := env.nFaces * env.nlocal_face_dofs

/-- Member `_ntotal_dofs = _ntotal_cell_dofs + _ntotal_face_dofs`. -/
def ntotal_dofs (env : HCEnv) : ℕ := ntotal_cell_dofs env + ntotal_face_dofs env

/-- Member `_Ldeg`, documented at `hybridcore.hpp` line 204: "usually equal to L,
but put at 0 if L=-1". -/
def Ldeg (env : HCEnv) : ℕ := if env.L = -1 then 0 else env.L.toNat

/-- Modelled from the spec: one entry of `HybridCore::gram_matrix` (declared
at `hybridcore.hpp` lines 154-162, body not among the source files): the L2
product `Σ_q w(q)·f_i(q)·g_j(q)` of two families sampled at the quadrature
nodes (no `L2weight` is passed by `interpolate`). -/
def hcGramEntry (fq gq : ℕ → ℕ → ℚ) (quad : QuadratureRule) (i j : ℕ) : ℚ :=
  ∑ iqn in Finset.range quad.size, quad.w iqn * fq i iqn * gq j iqn

/-- Modelled from the spec: `HybridCore::gram_matrix`; with the
pseudo-symmetric flag set, entries below the diagonal are the transposed
entries (the two families being semantically identical per the caller
contract). -/
def hc_gram_matrix (fq gq : ℕ → ℕ → ℚ) (nrows ncols : ℕ) (quad : QuadratureRule)
    (sym : Bool) : MatrixQ :=
  ⟨nrows, ncols, fun i j =>
    if sym ∧ j < i then hcGramEntry fq gq quad j i else hcGramEntry fq gq quad i j⟩

/-- Modelled from the spec: `HybridCore::basis_quad "cell"` (declared at
`hybridcore.hpp` lines 179-185, body not among the source files): the values
of cell `iT`'s basis functions at the quadrature nodes. -/
def cellBasisQuad (env : HCEnv) (iT : ℕ) (quad : QuadratureRule) : ℕ → ℕ → ℚ :=
  fun i iqn => env.cellBasisFn iT i (quad.pt iqn)

/-- Modelled from the spec: `HybridCore::basis_quad "face"`. -/
def faceBasisQuad (env : HCEnv) (iF : ℕ) (quad : QuadratureRule) : ℕ → ℕ → ℚ :=
  fun i iqn => env.faceBasisFn iF i (quad.pt iqn)

/-- The face mass matrix `MF` (`hybridcore.hpp` line 368). -/
def faceMass (env : HCEnv) (doe iF : ℕ) : MatrixQ :=
  hc_gram_matrix (faceBasisQuad env iF (env.quadFace iF doe))
    (faceBasisQuad env iF (env.quadFace iF doe))
    env.nlocal_face_dofs env.nlocal_face_dofs (env.quadFace iF doe) true

/-- The face load vector `bF` (`hybridcore.hpp` lines 371-376). -/
def faceLoad (env : HCEnv) (f : Vec3 → ℚ) (doe iF : ℕ) : ℕ → ℚ :=
  fun i => ∑ iqn in Finset.range (env.quadFace iF doe).size,
    (env.quadFace iF doe).w iqn * faceBasisQuad env iF (env.quadFace iF doe) i iqn
      * f ((env.quadFace iF doe).pt iqn)

/-- The face block `UF = MF.ldlt().solve(bF)` (`hybridcore.hpp` line 379). -/
def faceProj (env : HCEnv) (f : Vec3 → ℚ) (doe iF : ℕ) : ℕ → ℚ :=
  env.ldltSolve (faceMass env doe iF) (faceLoad env f doe iF)

/-- The cell mass matrix `MT` (`hybridcore.hpp` line 392). -/
def cellMass (env : HCEnv) (doe iT : ℕ) : MatrixQ :=
  hc_gram_matrix (cellBasisQuad env iT (env.quadCell iT doe))
    (cellBasisQuad env iT (env.quadCell iT doe))
    env.nlocal_cell_dofs env.nlocal_cell_dofs (env.quadCell iT doe) true

/-- The cell load vector `bT` (`hybridcore.hpp` lines 395-400). -/
def cellLoad (env : HCEnv) (f : Vec3 → ℚ) (doe iT : ℕ) : ℕ → ℚ :=
  fun i => ∑ iqn in Finset.range (env.quadCell iT doe).size,
    (env.quadCell iT doe).w iqn * cellBasisQuad env iT (env.quadCell iT doe) i iqn
      * f ((env.quadCell iT doe).pt iqn)

/-- The cell block `UT = MT.ldlt().solve(bT)` (`hybridcore.hpp` line 403). -/
def cellProj (env : HCEnv) (f : Vec3 → ℚ) (doe iT : ℕ) : ℕ → ℚ :=
  env.ldltSolve (cellMass env doe iT) (cellLoad env f doe iT)

/-- The rescaled weight `barycoefT(ilF) * (phiF_cst / phiT_cst)`
(`hybridcore.hpp` lines 412-421). -/
def barycoef (env : HCEnv) (iT ilF : ℕ) : ℚ :=
  env.computeWeights iT ilF *
    (env.faceBasisFn (env.cellFaceIdx iT ilF) 0 (env.faceCenter (env.cellFaceIdx iT ilF))
      / env.cellBasisFn iT 0 (env.cellCenter iT))

/-- One face iteration of `interpolate` (`hybridcore.hpp` lines 362-383):
write the face block at offset `_ntotal_cell_dofs + iF · _nlocal_face_dofs`. -/
def faceLoopStep (env : HCEnv) (f : Vec3 → ℚ) (doe : ℕ) (X : ℕ → ℚ) (iF : ℕ) : ℕ → ℚ :=
  writeSeg X (ntotal_cell_dofs env + iF * env.nlocal_face_dofs) env.nlocal_face_dofs
    (faceProj env f doe iF)

/-- The face loop of `interpolate`, from the zero DOF vector
(`hybridcore.hpp` lines 359-383). -/
def faceLoop (env : HCEnv) (f : Vec3 → ℚ) (doe : ℕ) : ℕ → ℚ :=
  (List.range env.nFaces).foldl (faceLoopStep env f doe) fun _ => 0

/-- One cell iteration of `interpolate` (`hybridcore.hpp` lines 385-430):
write the cell block at offset `iT · _nlocal_cell_dofs`; when `L = -1`,
`XTF(iT)` is then zeroed and accumulates
`barycoefT(ilF) · XTF(_ntotal_cell_dofs + iF)` over the cell's faces. -/
def cellStep (env : HCEnv) (f : Vec3 → ℚ) (doe : ℕ) (X : ℕ → ℚ) (iT : ℕ) : ℕ → ℚ :=
  let X2 := writeSeg X (iT * env.nlocal_cell_dofs) env.nlocal_cell_dofs
    (cellProj env f doe iT)
  if env.L = -1 then
    (List.range (env.cellNFaces iT)).foldl
      (fun Y ilF => writeVec Y iT
        (Y iT + barycoef env iT ilF * Y (ntotal_cell_dofs env + env.cellFaceIdx iT ilF)))
      (writeVec X2 iT 0)
  else X2

/-- Source `HybridCore::interpolate` (`hybridcore.hpp` lines 357-433): the face
loop, then the cell loop. -/
def interpolate (env : HCEnv) (f : Vec3 → ℚ) (doe : ℕ) : ℕ → ℚ :=
  (List.range env.nCells).foldl (cellStep env f doe) (faceLoop env f doe)

/-- Source `HybridCore::quadrature_over_cell` (`hybridcore.hpp` lines 304-311):
generate the rule at degree of exactness `2·_Ldeg + 2` and invoke the
evaluator once per node in order (the C++ callback's side effects become
explicit state `σ`). -/
def quadrature_over_cell {σ : Type} (env : HCEnv) (iT : ℕ)
    (f : ℕ → Vec3 → ℚ → σ → σ) (s0 : σ) : σ :=
  let quadT := env.quadCell iT (2 * Ldeg env + 2)
  (List.range quadT.size).foldl (fun s iqn => f iqn (quadT.pt iqn) (quadT.w iqn) s) s0

/-- Source `HybridCore::quadrature_over_face` (`hybridcore.hpp` lines 313-321):
the rule is generated at degree of exactness `2·_K + 2`. -/
def quadrature_over_face {σ : Type} (env : HCEnv) (iF : ℕ)
    (f : ℕ → Vec3 → ℚ → σ → σ) (s0 : σ) : σ :=
  let quadF := env.quadFace iF (2 * env.K + 2)
  (List.range quadF.size).foldl (fun s iqn => f iqn (quadF.pt iqn) (quadF.w iqn) s) s0

/-- Source `HybridCore::integrate_over_cell` (`hybridcore.hpp` lines 323-330). -/
def integrate_over_cell (env : HCEnv) (iT : ℕ) (f : Vec3 → ℚ) : ℚ :=
  quadrature_over_cell env iT (fun _ p w ans => ans + w * f p) 0

/-- Source `HybridCore::integrate_over_face` (`hybridcore.hpp` lines 332-339). -/
def integrate_over_face (env : HCEnv) (iF : ℕ) (f : Vec3 → ℚ) : ℚ :=
  quadrature_over_face env iF (fun _ p w ans => ans + w * f p) 0

/-- The (quadrature index, point, weight) tuples of a rule, in order. -/
def quadInvocations (qr : QuadratureRule) : List (ℕ × Vec3 × ℚ) :=
  (List.range qr.size).map fun iqn => (iqn, qr.pt iqn, qr.w iqn)

/-! ### Loop invariants for `interpolate` -/

lemma writeSeg_out (X : ℕ → ℚ) (off len : ℕ) (U : ℕ → ℚ) (n : ℕ)
    (h : ¬(off ≤ n ∧ n < off + len)) : writeSeg X off len U n = X n := by
  simp [writeSeg, h]

lemma writeSeg_at (X : ℕ → ℚ) (off len : ℕ) (U : ℕ → ℚ) (r : ℕ) (h : r < len) :
    writeSeg X off len U (off + r) = U r := by
  rw [writeSeg, if_pos (by omega)]
  congr 1
  omega

lemma writeVec_at (X : ℕ → ℚ) (n : ℕ) (v : ℚ) : writeVec X n v n = v := by
  simp [writeVec]

lemma writeVec_ne (X : ℕ → ℚ) (n : ℕ) (v : ℚ) (m : ℕ) (h : m ≠ n) :
    writeVec X n v m = X m := by
  simp [writeVec, h]

lemma slot_lt_ntotal (env : HCEnv) (iT : ℕ) (hc : 1 ≤ env.nlocal_cell_dofs)
    (hiT : iT < env.nCells) : iT < ntotal_cell_dofs env := by
  have h2 : (iT + 1) * env.nlocal_cell_dofs ≤ env.nCells * env.nlocal_cell_dofs :=
    Nat.mul_le_mul_right _ (by omega)
  have h3 : iT + 1 ≤ (iT + 1) * env.nlocal_cell_dofs :=
    Nat.le_mul_of_pos_right _ (by omega)
  have h4 : ntotal_cell_dofs env = env.nCells * env.nlocal_cell_dofs := rfl
  omega

lemma block_le_ntotal (env : HCEnv) (iT : ℕ) (hiT : iT < env.nCells) :
    iT * env.nlocal_cell_dofs + env.nlocal_cell_dofs ≤ ntotal_cell_dofs env := by
  have h2 : (iT + 1) * env.nlocal_cell_dofs ≤ env.nCells * env.nlocal_cell_dofs :=
    Nat.mul_le_mul_right _ (by omega)
  have h3 : (iT + 1) * env.nlocal_cell_dofs
      = iT * env.nlocal_cell_dofs + env.nlocal_cell_dofs := by ring
  have h4 : ntotal_cell_dofs env = env.nCells * env.nlocal_cell_dofs := rfl
  omega

/-- The face loop never writes below `_ntotal_cell_dofs`. -/
lemma faceLoopFold_lower (env : HCEnv) (f : Vec3 → ℚ) (doe : ℕ) :
    ∀ (c : ℕ) (X : ℕ → ℚ) (n : ℕ), n < ntotal_cell_dofs env →
    ((List.range c).foldl (faceLoopStep env f doe) X) n = X n := by
  intro c
  induction c with
  | zero => intro X n _; simp
  | succ c ih =>
    intro X n hn
    rw [List.range_succ, List.foldl_append, List.foldl_cons, List.foldl_nil,
      faceLoopStep, writeSeg_out _ _ _ _ _ (by omega), ih X n hn]

/-- After the face loop, face `iF`'s block holds `faceProj`: later iterations
write disjoint segments. -/
lemma faceLoopFold_at (env : HCEnv) (f : Vec3 → ℚ) (doe : ℕ) :
    ∀ (c : ℕ) (X : ℕ → ℚ) (iF r : ℕ), iF < c → r < env.nlocal_face_dofs →
    ((List.range c).foldl (faceLoopStep env f doe) X)
      (ntotal_cell_dofs env + iF * env.nlocal_face_dofs + r)
      = faceProj env f doe iF r := by
  intro c
  induction c with
  | zero => intro X iF r h _; exact absurd h (Nat.not_lt_zero iF)
  | succ c ih =>
    intro X iF r hiF hr
    rw [List.range_succ, List.foldl_append, List.foldl_cons, List.foldl_nil, faceLoopStep]
    rcases Nat.lt_or_ge iF c with h' | h'
    · have hm : iF * env.nlocal_face_dofs + env.nlocal_face_dofs
          ≤ c * env.nlocal_face_dofs := by
        have h2 := Nat.mul_le_mul_right env.nlocal_face_dofs (show iF + 1 ≤ c by omega)
        have h3 : (iF + 1) * env.nlocal_face_dofs
            = iF * env.nlocal_face_dofs + env.nlocal_face_dofs := by ring
        omega
      rw [writeSeg_out _ _ _ _ _ (by omega), ih X iF r h' hr]
    · have hic : iF = c := by omega
      rw [hic, show ntotal_cell_dofs env + c * env.nlocal_face_dofs + r
        = (ntotal_cell_dofs env + c * env.nlocal_face_dofs) + r by omega,
        writeSeg_at _ _ _ _ _ hr]

/-- The `L = -1` accumulation writes only the cell slot `iT`. -/
lemma cellAccum_untouched (env : HCEnv) (iT : ℕ) :
    ∀ (c : ℕ) (Y : ℕ → ℚ) (m : ℕ), m ≠ iT →
    ((List.range c).foldl (fun Y ilF => writeVec Y iT
      (Y iT + barycoef env iT ilF
        * Y (ntotal_cell_dofs env + env.cellFaceIdx iT ilF))) Y) m
      = Y m := by
  intro c
  induction c with
  | zero => intro Y m _; simp
  | succ c ih =>
    intro Y m hm
    rw [List.range_succ, List.foldl_append, List.foldl_cons, List.foldl_nil,
      writeVec_ne _ _ _ _ hm, ih Y m hm]

/-- The `L = -1` accumulation leaves the cell slot holding the starting
value plus the weighted sum of the values it reads, all reads being outside
the written slot. -/
lemma cellAccum_at (env : HCEnv) (iT : ℕ)
    (hread : ∀ ilF, ntotal_cell_dofs env + env.cellFaceIdx iT ilF ≠ iT) :
    ∀ (c : ℕ) (Y : ℕ → ℚ),
    ((List.range c).foldl (fun Y ilF => writeVec Y iT
      (Y iT + barycoef env iT ilF
        * Y (ntotal_cell_dofs env + env.cellFaceIdx iT ilF))) Y) iT
      = Y iT + ∑ ilF in Finset.range c,
          barycoef env iT ilF * Y (ntotal_cell_dofs env + env.cellFaceIdx iT ilF) := by
  intro c
  induction c with
  | zero => intro Y; simp
  | succ c ih =>
    intro Y
    rw [List.range_succ, List.foldl_append, List.foldl_cons, List.foldl_nil,
      writeVec_at, ih Y, cellAccum_untouched env iT c Y _ (hread c),
      Finset.sum_range_succ]
    ring

/-- A cell iteration leaves positions outside its block and its slot
unchanged. -/
lemma cellStep_untouched (env : HCEnv) (f : Vec3 → ℚ) (doe : ℕ) (X : ℕ → ℚ) (iT m : ℕ)
    (h1 : ¬(iT * env.nlocal_cell_dofs ≤ m ∧
      m < iT * env.nlocal_cell_dofs + env.nlocal_cell_dofs))
    (h2 : m ≠ iT) :
    cellStep env f doe X iT m = X m := by
  simp only [cellStep]
  by_cases hL : env.L = -1
  · rw [if_pos hL, cellAccum_untouched env iT _ _ m h2, writeVec_ne _ _ _ _ h2,
      writeSeg_out _ _ _ _ _ h1]
  · rw [if_neg hL, writeSeg_out _ _ _ _ _ h1]

/-- With `L ≠ -1` a cell iteration writes only its block. -/
lemma cellStep_untouched_ne (env : HCEnv) (f : Vec3 → ℚ) (doe : ℕ) (X : ℕ → ℚ)
    (iT m : ℕ) (hL : env.L ≠ -1)
    (h1 : ¬(iT * env.nlocal_cell_dofs ≤ m ∧
      m < iT * env.nlocal_cell_dofs + env.nlocal_cell_dofs)) :
    cellStep env f doe X iT m = X m := by
  simp only [cellStep]
  rw [if_neg hL, writeSeg_out _ _ _ _ _ h1]

/-- With `L ≠ -1` a cell iteration writes `cellProj` into its block. -/
lemma cellStep_at_block (env : HCEnv) (f : Vec3 → ℚ) (doe : ℕ) (X : ℕ → ℚ) (iT r : ℕ)
    (hL : env.L ≠ -1) (hr : r < env.nlocal_cell_dofs) :
    cellStep env f doe X iT (iT * env.nlocal_cell_dofs + r) = cellProj env f doe iT r := by
  simp only [cellStep]
  rw [if_neg hL, writeSeg_at _ _ _ _ _ hr]

/-- A cell iteration never writes at or above `_ntotal_cell_dofs`. -/
lemma cellStep_hi (env : HCEnv) (f : Vec3 → ℚ) (doe : ℕ) (X : ℕ → ℚ) (iT n : ℕ)
    (hc : 1 ≤ env.nlocal_cell_dofs) (hiT : iT < env.nCells)
    (hn : ntotal_cell_dofs env ≤ n) :
    cellStep env f doe X iT n = X n := by
  have hblock := block_le_ntotal env iT hiT
  have hslot := slot_lt_ntotal env iT hc hiT
  exact cellStep_untouched env f doe X iT n (by omega) (by omega)

/-- With `L = -1` a cell iteration's slot value is the weighted sum of the
entries `X(_ntotal_cell_dofs + iF)` of the incoming state. -/
lemma cellStep_Lm1_slot (env : HCEnv) (f : Vec3 → ℚ) (doe : ℕ) (X : ℕ → ℚ) (iT : ℕ)
    (hL : env.L = -1) (hc : 1 ≤ env.nlocal_cell_dofs) (hiT : iT < env.nCells) :
    cellStep env f doe X iT iT
      = ∑ ilF in Finset.range (env.cellNFaces iT),
          barycoef env iT ilF * X (ntotal_cell_dofs env + env.cellFaceIdx iT ilF) := by
  have hslot := slot_lt_ntotal env iT hc hiT
  have hblock := block_le_ntotal env iT hiT
  have hread : ∀ ilF, ntotal_cell_dofs env + env.cellFaceIdx iT ilF ≠ iT := by
    intro ilF; omega
  simp only [cellStep]
  rw [if_pos hL, cellAccum_at env iT hread (env.cellNFaces iT) _, writeVec_at, zero_add]
  refine Finset.sum_congr rfl fun ilF _ => ?_
  rw [writeVec_ne _ _ _ _ (hread ilF), writeSeg_out _ _ _ _ _ (by omega)]

/-- The cell loop never changes entries at or above `_ntotal_cell_dofs`. -/
lemma cellFold_hi (env : HCEnv) (f : Vec3 → ℚ) (doe : ℕ)
    (hc : 1 ≤ env.nlocal_cell_dofs) :
    ∀ (c : ℕ), c ≤ env.nCells → ∀ (X : ℕ → ℚ) (n : ℕ), ntotal_cell_dofs env ≤ n →
    ((List.range c).foldl (cellStep env f doe) X) n = X n := by
  intro c
  induction c with
  | zero => intro _ X n _; simp
  | succ c ih =>
    intro hcn X n hn
    rw [List.range_succ, List.foldl_append, List.foldl_cons, List.foldl_nil,
      cellStep_hi env f doe _ c n hc (by omega) hn, ih (by omega) X n hn]

/-- With `L ≠ -1`, after the cell loop, cell `iT`'s block holds `cellProj`. -/
lemma cellFold_at_block (env : HCEnv) (f : Vec3 → ℚ) (doe : ℕ) (hL : env.L ≠ -1) :
    ∀ (c : ℕ) (X : ℕ → ℚ) (iT r : ℕ), iT < c → r < env.nlocal_cell_dofs →
    ((List.range c).foldl (cellStep env f doe) X) (iT * env.nlocal_cell_dofs + r)
      = cellProj env f doe iT r := by
  intro c
  induction c with
  | zero => intro X iT r h _; exact absurd h (Nat.not_lt_zero iT)
  | succ c ih =>
    intro X iT r hiT hr
    rw [List.range_succ, List.foldl_append, List.foldl_cons, List.foldl_nil]
    rcases Nat.lt_or_ge iT c with h' | h'
    · have hm : iT * env.nlocal_cell_dofs + env.nlocal_cell_dofs
          ≤ c * env.nlocal_cell_dofs := by
        have h2 := Nat.mul_le_mul_right env.nlocal_cell_dofs (show iT + 1 ≤ c by omega)
        have h3 : (iT + 1) * env.nlocal_cell_dofs
            = iT * env.nlocal_cell_dofs + env.nlocal_cell_dofs := by ring
        omega
      rw [cellStep_untouched_ne env f doe _ c _ hL (by omega), ih X iT r h' hr]
    · have hic : iT = c := by omega
      rw [hic, cellStep_at_block env f doe _ c r hL hr]

/-- With `L = -1`, after the cell loop, cell `iT`'s slot holds the weighted
sum of the starting state's entries at `_ntotal_cell_dofs + iF`. -/
lemma cellFold_Lm1_slot (env : HCEnv) (f : Vec3 → ℚ) (doe : ℕ) (hL : env.L = -1)
    (hc : 1 ≤ env.nlocal_cell_dofs) :
    ∀ (c : ℕ), c ≤ env.nCells → ∀ (X : ℕ → ℚ) (iT : ℕ), iT < c →
    ((List.range c).foldl (cellStep env f doe) X) iT
      = ∑ ilF in Finset.range (env.cellNFaces iT),
          barycoef env iT ilF * X (ntotal_cell_dofs env + env.cellFaceIdx iT ilF) := by
  intro c
  induction c with
  | zero => intro _ X iT h; exact absurd h (Nat.not_lt_zero iT)
  | succ c ih =>
    intro hcn X iT hiT
    rw [List.range_succ, List.foldl_append, List.foldl_cons, List.foldl_nil]
    rcases Nat.lt_or_ge iT c with h' | h'
    · have hcm : c ≤ c * env.nlocal_cell_dofs :=
        Nat.le_mul_of_pos_right _ (by omega)
      rw [cellStep_untouched env f doe _ c iT (by omega) (by omega),
        ih (by omega) X iT h']
    · have hic : iT = c := by omega
      rw [hic, cellStep_Lm1_slot env f doe _ c hL hc (by omega)]
      refine Finset.sum_congr rfl fun ilF _ => ?_
      rw [cellFold_hi env f doe hc c (by omega) X _ (by omega)]

lemma foldl_range_add (h : ℕ → ℚ) : ∀ (n : ℕ) (a : ℚ),
    (List.range n).foldl (fun acc i => acc + h i) a
      = a + ∑ i in Finset.range n, h i := by
  intro n
  induction n with
  | zero => intro a; simp
  | succ n ih =>
    intro a
    rw [List.range_succ, List.foldl_append, List.foldl_cons, List.foldl_nil, ih,
      Finset.sum_range_succ]
    ring

/-! ## Claim theorems on `HybridCore` -/

/-- C2 (amended): the DOF vector has all cell blocks first and all face
blocks second; face `iF`'s block of length `nlocal_face_dofs` starts at
`ntotal_cell_dofs + iF · nlocal_face_dofs` and holds the local solve of the
face mass system against the face load vector; when `L ≠ -1`, cell `iT`'s
block of length `nlocal_cell_dofs` starts at `iT · nlocal_cell_dofs` and
holds the local solve of the cell mass system (for `L = -1` the cell slot is
subsequently overwritten by the face-average reconstruction, see C1). -/
theorem interpolate_blocks :
    (∀ (env : HCEnv) (f : Vec3 → ℚ) (doe iF r : ℕ), 1 ≤ env.nlocal_cell_dofs →
      iF < env.nFaces → r < env.nlocal_face_dofs →
      interpolate env f doe (ntotal_cell_dofs env + iF * env.nlocal_face_dofs + r)
        = faceProj env f doe iF r) ∧
    (∀ (env : HCEnv) (f : Vec3 → ℚ) (doe iT r : ℕ), env.L ≠ -1 →
      iT < env.nCells → r < env.nlocal_cell_dofs →
      interpolate env f doe (iT * env.nlocal_cell_dofs + r)
        = cellProj env f doe iT r) := by
  constructor
  · intro env f doe iF r hc hiF hr
    rw [interpolate,
      cellFold_hi env f doe hc env.nCells (le_refl _) _ _ (by omega), faceLoop,
      faceLoopFold_at env f doe env.nFaces _ iF r hiF hr]
  · intro env f doe iT r hL hiT hr
    rw [interpolate, cellFold_at_block env f doe hL env.nCells _ iT r hiT hr]

/-- C1 (amended): when `L = -1` (so the constructor sets one cell dof), after
all face blocks are computed, the cell slot `iT` of the DOF vector is the sum
over the cell's faces of the rescaled `compute_weights` weight
(multiplied by face-constant-basis value at the face centroid over
cell-constant-basis value at the cell centroid) times the DOF-vector entry at
index `ntotal_cell_dofs + iF` — which is the first entry of face `iF`'s
block only when `nlocal_face_dofs = 1`, not in general. -/
theorem interpolate_Lminus1_cell_slot (env : HCEnv) (f : Vec3 → ℚ) (doe iT : ℕ)
    (hL : env.L = -1) (hc : env.nlocal_cell_dofs = 1) (hiT : iT < env.nCells) :
    interpolate env f doe iT
      = ∑ ilF in Finset.range (env.cellNFaces iT),
          barycoef env iT ilF *
            interpolate env f doe (ntotal_cell_dofs env + env.cellFaceIdx iT ilF) := by
  have hc1 : 1 ≤ env.nlocal_cell_dofs := by omega
  rw [interpolate, cellFold_Lm1_slot env f doe hL hc1 env.nCells (le_refl _) _ iT hiT]
  refine Finset.sum_congr rfl fun ilF _ => ?_
  rw [cellFold_hi env f doe hc1 env.nCells (le_refl _) (faceLoop env f doe) _ (by omega)]

/-- C8 (amended): `quadrature_over_cell` generates its rule at degree of
exactness `2·Ldeg + 2` (equal to `2·L + 2` whenever `L ≥ 0`, but `2` when
`L = -1`), `quadrature_over_face` at `2·K + 2`, each invoking the evaluator
once per (index, point, weight) in order; the `integrate_over_*` wrappers
return exactly the accumulated `Σ w·f(point)` over that rule. -/
theorem quadrature_helpers_spec :
    (∀ (σ : Type) (env : HCEnv) (iT : ℕ) (f : ℕ → Vec3 → ℚ → σ → σ) (s0 : σ),
      iT < env.nCells →
      quadrature_over_cell env iT f s0
        = (quadInvocations (env.quadCell iT (2 * Ldeg env + 2))).foldl
            (fun s t => f t.1 t.2.1 t.2.2 s) s0) ∧
    (∀ (σ : Type) (env : HCEnv) (iF : ℕ) (f : ℕ → Vec3 → ℚ → σ → σ) (s0 : σ),
      iF < env.nFaces →
      quadrature_over_face env iF f s0
        = (quadInvocations (env.quadFace iF (2 * env.K + 2))).foldl
            (fun s t => f t.1 t.2.1 t.2.2 s) s0) ∧
    (∀ (env : HCEnv) (iT : ℕ) (g : Vec3 → ℚ), iT < env.nCells →
      integrate_over_cell env iT g
        = ∑ iqn in Finset.range (env.quadCell iT (2 * Ldeg env + 2)).size,
            (env.quadCell iT (2 * Ldeg env + 2)).w iqn
              * g ((env.quadCell iT (2 * Ldeg env + 2)).pt iqn)) ∧
    (∀ (env : HCEnv) (iF : ℕ) (g : Vec3 → ℚ), iF < env.nFaces →
      integrate_over_face env iF g
        = ∑ iqn in Finset.range (env.quadFace iF (2 * env.K + 2)).size,
            (env.quadFace iF (2 * env.K + 2)).w iqn
              * g ((env.quadFace iF (2 * env.K + 2)).pt iqn)) := by
  refine ⟨fun σ env iT f s0 _ => ?_, fun σ env iF f s0 _ => ?_,
    fun env iT g _ => ?_, fun env iF g _ => ?_⟩
  · simp only [quadrature_over_cell, quadInvocations, List.foldl_map]
  · simp only [quadrature_over_face, quadInvocations, List.foldl_map]
  · simp only [integrate_over_cell, quadrature_over_cell]
    rw [foldl_range_add (fun iqn => (env.quadCell iT (2 * Ldeg env + 2)).w iqn
      * g ((env.quadCell iT (2 * Ldeg env + 2)).pt iqn)), zero_add]
  · simp only [integrate_over_face, quadrature_over_face]
    rw [foldl_range_add (fun iqn => (env.quadFace iF (2 * env.K + 2)).w iqn
      * g ((env.quadFace iF (2 * env.K + 2)).pt iqn)), zero_add]

/-! ## Concrete instances -/

/-- A one-cell, two-face instance with `L = -1`, face blocks of width 2,
single-node unit-weight quadrature rules, slot-0 basis values constantly 1,
`compute_weights ≡ 1/2`, and the identity in place of the LDLT solve. -/
def envA : HCEnv where
  nCells := 1
  nFaces := 2
  K := 1
  L := -1
  nlocal_cell_dofs := 1
  nlocal_face_dofs := 2
  cellNFaces := fun _ => 2
  cellFaceIdx := fun _ ilF => ilF
  cellCenter := fun _ => Vec3.zero
  faceCenter := fun _ => Vec3.zero
  quadCell := fun _ _ => ⟨[(Vec3.zero, 1)]⟩
  quadFace := fun _ _ => ⟨[(Vec3.zero, 1)]⟩
  cellBasisFn := fun _ i _ => if i = 0 then 1 else 0
  faceBasisFn := fun _ i _ => if i = 0 then 1 else 0
  computeWeights := fun _ _ => 1 / 2
  ldltSolve := fun _ b => b

/-- Instance `envA` with `L = 0`: the cell block is not overwritten. -/
def envB : HCEnv := { envA with L := 0 }

/-- Instance `envA` with a quadrature generator that returns a single-node rule at
degree of exactness 2 and the empty rule at every other degree. -/
def envC8 : HCEnv :=
  { envA with quadCell := fun _ d => if d = 2 then ⟨[(Vec3.zero, 1)]⟩ else ⟨[]⟩ }

/-- C1 counterexample: on `envA` (where `nlocal_face_dofs = 2`), the `L = -1`
cell slot is NOT the weighted sum of the faces' zero-order coefficients (the
first entries of the face blocks, at `ntotal_cell_dofs + iF·nlocal_face_dofs`):
the code reads index `ntotal_cell_dofs + iF` instead. -/
theorem interpolate_Lminus1_not_first_block_entry :
    interpolate envA (fun _ => 1) 1 0
        = 1 / 2 ∧
    (∑ ilF in Finset.range (envA.cellNFaces 0),
        barycoef envA 0 ilF *
          interpolate envA (fun _ => 1) 1
            (ntotal_cell_dofs envA + envA.cellFaceIdx 0 ilF * envA.nlocal_face_dofs))
        = 1 ∧
    interpolate envA (fun _ => 1) 1 0
      ≠ ∑ ilF in Finset.range (envA.cellNFaces 0),
          barycoef envA 0 ilF *
            interpolate envA (fun _ => 1) 1
              (ntotal_cell_dofs envA + envA.cellFaceIdx 0 ilF * envA.nlocal_face_dofs) := by
  norm_num [interpolate, cellStep, faceLoop, faceLoopStep, faceProj, faceLoad,
    cellProj, cellLoad, faceMass, cellMass, hc_gram_matrix, hcGramEntry, faceBasisQuad,
    cellBasisQuad, barycoef, ntotal_cell_dofs, writeSeg, writeVec, envA, envB, envC8,
    integrate_over_cell, quadrature_over_cell, Ldeg, QuadratureRule.size, QuadratureRule.w,
    QuadratureRule.pt, Finset.sum_range_succ, List.range_succ, List.foldl_append]

/-- C1 witness: the amended statement evaluated on `envA`. -/
theorem interpolate_Lminus1_cell_slot_witness :
    interpolate envA (fun _ => 1) 1 0
      = ∑ ilF in Finset.range (envA.cellNFaces 0),
          barycoef envA 0 ilF *
            interpolate envA (fun _ => 1) 1
              (ntotal_cell_dofs envA + envA.cellFaceIdx 0 ilF) :=
  interpolate_Lminus1_cell_slot envA (fun _ => 1) 1 0 rfl rfl (by decide)

/-- C2 counterexample: on `envA` (where `L = -1`), cell 0's block does not
hold the local solve `cellProj`: the reconstruction overwrote it. -/
theorem interpolate_cell_block_not_solve_at_Lminus1 :
    interpolate envA (fun _ => 1) 1 (0 * envA.nlocal_cell_dofs + 0)
      ≠ cellProj envA (fun _ => 1) 1 0 0 := by
  norm_num [interpolate, cellStep, faceLoop, faceLoopStep, faceProj, faceLoad,
    cellProj, cellLoad, faceMass, cellMass, hc_gram_matrix, hcGramEntry, faceBasisQuad,
    cellBasisQuad, barycoef, ntotal_cell_dofs, writeSeg, writeVec, envA, envB, envC8,
    integrate_over_cell, quadrature_over_cell, Ldeg, QuadratureRule.size, QuadratureRule.w,
    QuadratureRule.pt, Finset.sum_range_succ, List.range_succ, List.foldl_append]

/-- C8 counterexample: on `envC8` (where `L = -1`), the rule actually used by
`integrate_over_cell` has one node of weight 1 (degree of exactness
`2·Ldeg + 2 = 2`), while the rule at the claimed degree of exactness
`2·L + 2 = 0` is empty. -/
theorem quadrature_doe_Lminus1_counterexample :
    envC8.L = -1 ∧
    integrate_over_cell envC8 0 (fun _ => 1) = 1 ∧
    (envC8.quadCell 0 ((2 * envC8.L + 2).toNat)).size = 0 := by
  norm_num [interpolate, cellStep, faceLoop, faceLoopStep, faceProj, faceLoad,
    cellProj, cellLoad, faceMass, cellMass, hc_gram_matrix, hcGramEntry, faceBasisQuad,
    cellBasisQuad, barycoef, ntotal_cell_dofs, writeSeg, writeVec, envA, envB, envC8,
    integrate_over_cell, quadrature_over_cell, Ldeg, QuadratureRule.size, QuadratureRule.w,
    QuadratureRule.pt, Finset.sum_range_succ, List.range_succ, List.foldl_append]

/-! Sanity checks of the embedding on concrete inputs. -/

lemma interpolate_envA_face_values :
    interpolate envA (fun _ => 1) 1 1 = 1 ∧ interpolate envA (fun _ => 1) 1 2 = 0 ∧
    interpolate envA (fun _ => 1) 1 3 = 1 ∧ interpolate envA (fun _ => 1) 1 4 = 0 := by
  norm_num [interpolate, cellStep, faceLoop, faceLoopStep, faceProj, faceLoad,
    cellProj, cellLoad, faceMass, cellMass, hc_gram_matrix, hcGramEntry, faceBasisQuad,
    cellBasisQuad, barycoef, ntotal_cell_dofs, writeSeg, writeVec, envA, envB, envC8,
    integrate_over_cell, quadrature_over_cell, Ldeg, QuadratureRule.size, QuadratureRule.w,
    QuadratureRule.pt, Finset.sum_range_succ, List.range_succ, List.foldl_append]

lemma interpolate_envB_cell_value :
    interpolate envB (fun _ => 1) 1 0 = 1 ∧
    interpolate envB (fun _ => 1) 1 0 = cellProj envB (fun _ => 1) 1 0 0 := by
  norm_num [interpolate, cellStep, faceLoop, faceLoopStep, faceProj, faceLoad,
    cellProj, cellLoad, faceMass, cellMass, hc_gram_matrix, hcGramEntry, faceBasisQuad,
    cellBasisQuad, barycoef, ntotal_cell_dofs, writeSeg, writeVec, envA, envB, envC8,
    integrate_over_cell, quadrature_over_cell, Ldeg, QuadratureRule.size, QuadratureRule.w,
    QuadratureRule.pt, Finset.sum_range_succ, List.range_succ, List.foldl_append]

lemma compute_gram_matrix_scalar_value :
    (compute_gram_matrix_scalar ⟨1, 1, fun _ _ => 2⟩ ⟨1, 1, fun _ _ => 3⟩
      ⟨[(Vec3.zero, 5)]⟩ 1 1 "").val 0 0 = 30 := by
  norm_num [compute_gram_matrix_scalar, gramLoop, gramRow, writeEntry, scalarGramEntry,
    QuadratureRule.size, QuadratureRule.w, QuadratureRule.pt, Finset.sum_range_succ,
    List.range_succ, List.foldl_append, List.range']

lemma compute_gram_matrix_scalar_sym_value :
    (compute_gram_matrix_scalar_full ⟨2, 1, fun i _ => if i = 0 then 1 else 2⟩
      ⟨2, 1, fun i _ => if i = 0 then 1 else 2⟩ ⟨[(Vec3.zero, 1)]⟩ "sym").val 1 0 = 2 := by
  norm_num [compute_gram_matrix_scalar_full, compute_gram_matrix_scalar, gramLoop, gramRow,
    writeEntry, scalarGramEntry, QuadratureRule.size, QuadratureRule.w, QuadratureRule.pt,
    Finset.sum_range_succ, List.range_succ, List.foldl_append, List.range']

end HArDCore3D
